import Mathlib

/-!
Shallow embedding of the core of the SWE573 "Hive" marketplace
(`core/models.py`, `core/consumers.py`, `appsite/views.py`).

Conventions of the embedding:
* Django model rows become Lean structures; integer fields become `Int`.
* Methods that `raise ValidationError` become functions into
  `Except String _`; returning `.error _` models the exception, in which
  case the receiver object is untouched (Django only mutates then saves
  after all checks pass in these methods).
* The database table of `HoneyBalance` rows becomes an association list
  `Balances` from user id to balance; `save()` on a balance object becomes
  a functional update of that list.
-/

namespace TheHive

/-- `core.models.HoneyBalance` row: `total_honey` and `provisioned_honey`
integer fields (user key is kept externally in the `Balances` table). -/
structure HoneyBalance where
  total_honey : Int
  provisioned_honey : Int
deriving DecidableEq, Repr

/-- `HoneyBalance.usable_honey` property: `total_honey - provisioned_honey`. -/
def HoneyBalance.usable_honey (b : HoneyBalance) : Int :=
  b.total_honey - b.provisioned_honey

/-- `HoneyBalance.can_afford`: `usable_honey >= amount`. -/
def HoneyBalance.can_afford (b : HoneyBalance) (amount : Int) : Bool :=
  b.usable_honey ≥ amount

/-- `HoneyBalance.provision`: raises if `not can_afford`, else
`provisioned_honey += amount`. -/
def HoneyBalance.provision (b : HoneyBalance) (amount : Int) :
    Except String HoneyBalance :=
  if ¬ b.can_afford amount then
    .error "Insufficient honey."
  else
    .ok { b with provisioned_honey := b.provisioned_honey + amount }

/-- `HoneyBalance.release_provision`: raises if `provisioned_honey < amount`,
else `provisioned_honey -= amount`. -/
def HoneyBalance.release_provision (b : HoneyBalance) (amount : Int) :
    Except String HoneyBalance :=
  if b.provisioned_honey < amount then
    .error "Cannot release more than provisioned."
  else
    .ok { b with provisioned_honey := b.provisioned_honey - amount }

/-- `HoneyBalance.add_honey`: unconditionally `total_honey += amount`. -/
def HoneyBalance.add_honey (b : HoneyBalance) (amount : Int) :
    Except String HoneyBalance :=
  .ok { b with total_honey := b.total_honey + amount }

/-- `HoneyBalance.deduct_honey`: raises if `total_honey < amount`, else
`total_honey -= amount`. -/
def HoneyBalance.deduct_honey (b : HoneyBalance) (amount : Int) :
    Except String HoneyBalance :=
  if b.total_honey < amount then
    .error "Insufficient total honey."
  else
    .ok { b with total_honey := b.total_honey - amount }

/-- `HoneyBalance.finalize_transaction`: raises if
`provisioned_honey < provisioned_amount`, else subtracts the amount from
both `total_honey` and `provisioned_honey`. -/
def HoneyBalance.finalize_transaction (b : HoneyBalance)
    (provisioned_amount : Int) : Except String HoneyBalance :=
  if b.provisioned_honey < provisioned_amount then
    .error "Cannot finalize: provisioned amount mismatch."
  else
    .ok { b with
      total_honey := b.total_honey - provisioned_amount
      provisioned_honey := b.provisioned_honey - provisioned_amount }

/-- The spec's ledger invariant `0 ≤ provisioned_honey ≤ total_honey`. -/
def honeyInv (b : HoneyBalance) : Prop :=
  0 ≤ b.provisioned_honey ∧ b.provisioned_honey ≤ b.total_honey

instance (b : HoneyBalance) : Decidable (honeyInv b) := by
  unfold honeyInv; infer_instance

/-- `Handshake.STATUS_CHOICES` from `core/models.py`. -/
inductive HStatus where
  | active
  | in_progress
  | completed
  | cancelled
deriving DecidableEq, Repr

/-- `core.models.Handshake` row.  Users and interests are referenced by
numeric ids; `offer_interest` / `need_interest` are the two nullable
one-to-one links. -/
structure Handshake where
  offer_interest : Option Nat
  need_interest : Option Nat
  user1 : Nat
  user2 : Nat
  status : HStatus
  honey_amount : Int
deriving DecidableEq, Repr

/-- `Handshake.get_spender`: for an offer handshake `user2` spends, for a
need handshake `user1` spends, otherwise `None`. -/
def Handshake.get_spender (h : Handshake) : Option Nat :=
  match h.offer_interest with
  | some _ => some h.user2
  | none =>
    match h.need_interest with
    | some _ => some h.user1
    | none => none

/-- `Handshake.get_earner`: for an offer handshake `user1` earns, for a
need handshake `user2` earns, otherwise `None`. -/
def Handshake.get_earner (h : Handshake) : Option Nat :=
  match h.offer_interest with
  | some _ => some h.user1
  | none =>
    match h.need_interest with
    | some _ => some h.user2
    | none => none

/-- `Handshake.clean`: exactly one of `offer_interest` / `need_interest`
must be set (returned as a boolean; `False` models `ValidationError`). -/
def Handshake.clean (h : Handshake) : Bool :=
  match h.offer_interest, h.need_interest with
  | some _, none => true
  | none, some _ => true
  | _, _ => false

/-- The `HoneyBalance` table: an association list from user id to balance
row, one entry per user. -/
abbrev Balances := List (Nat × HoneyBalance)

/-- `HoneyBalance.objects.get(user=u)` (as an `Option`). -/
def lookupBal (bals : Balances) (u : Nat) : Option HoneyBalance :=
  match bals with
  | [] => none
  | (v, b) :: rest => if v = u then some b else lookupBal rest u

/-- `balance.save()`: replace the row for `u` in place (append at the end
if the row is new, as a database insert would). -/
def setBal (bals : Balances) (u : Nat) (b : HoneyBalance) : Balances :=
  match bals with
  | [] => [(u, b)]
  | (v, c) :: rest =>
    if v = u then (u, b) :: rest else (v, c) :: setBal rest u b

/-- The row-creating half of `HoneyBalance.objects.get_or_create` with
`defaults={'total_honey': 0, 'provisioned_honey': 0}`: inserts a zero row
when the user has none. -/
def ensureBal (bals : Balances) (u : Nat) : Balances :=
  match lookupBal bals u with
  | some _ => bals
  | none => bals ++ [(u, ⟨0, 0⟩)]

/-- Value returned by `HoneyBalance.objects.get_or_create(user=u, defaults=zero)`. -/
def getOrCreateBal (bals : Balances) (u : Nat) : HoneyBalance :=
  match lookupBal bals u with
  | some b => b
  | none => ⟨0, 0⟩

/-- `Handshake._finalize_honey_transaction`: early-returns when
`honey_amount <= 0` or a party is missing; `get_or_create`s both balances,
then tries `finalize_transaction` on the spender followed by `add_honey`
on the earner, catching `ValidationError` (the error is logged and the
balances written so far stand).  Both balance objects are fetched before
the try block, as in the source. -/
def finalizeHoneyTransaction (h : Handshake) (bals : Balances) : Balances :=
  if h.honey_amount ≤ 0 then bals
  else
    match h.get_spender, h.get_earner with
    | some sp, some er =>
      let bals1 := ensureBal (ensureBal bals sp) er
      let sb := getOrCreateBal bals sp
      let eb := getOrCreateBal bals1 er
      match sb.finalize_transaction h.honey_amount with
      | .error _ => bals1
      | .ok sb' =>
        let bals2 := setBal bals1 sp sb'
        match eb.add_honey h.honey_amount with
        | .error _ => bals2
        | .ok eb' => setBal bals2 er eb'
    | _, _ => bals

/-- `Handshake._release_provisioned_honey`: early-returns when
`honey_amount <= 0` or the spender is missing; `HoneyBalance.objects.get`
(absence is swallowed, no row is created), then `release_provision`
catching `ValidationError`. -/
def releaseProvisionedHoney (h : Handshake) (bals : Balances) : Balances :=
  if h.honey_amount ≤ 0 then bals
  else
    match h.get_spender with
    | none => bals
    | some sp =>
      match lookupBal bals sp with
      | none => bals
      | some sb =>
        match sb.release_provision h.honey_amount with
        | .error _ => bals
        | .ok sb' => setBal bals sp sb'

/-- `Handshake.save`: `old` is the status currently stored for this primary
key (`none` when the row is new, i.e. `self.pk` unset).  The ledger side
effect fires when the status moves to `completed` from any other stored
status, or else to `cancelled` from any other stored status; afterwards
`full_clean` runs (its failure is the `.error`; note the side effects have
already been applied to the balance table by then, as in the source). -/
def handshakeSave (old : Option HStatus) (h : Handshake) (bals : Balances) :
    Balances × Except String Handshake :=
  let bals' :=
    match old with
    | none => bals
    | some oldS =>
      if oldS ≠ .completed ∧ h.status = .completed then
        finalizeHoneyTransaction h bals
      else if oldS ≠ .cancelled ∧ h.status = .cancelled then
        releaseProvisionedHoney h bals
      else bals
  (bals', if h.clean then .ok h else .error "Handshake validation failed")

/-! ### `parse_duration_to_hours` (`core/models.py`)

Python scans the stripped string with `re.search` for
`(\d+\.?\d*)\s*(?:hour|hours|hr|hrs)` (case-insensitive), then the minute
variant, then a bare number, and applies `round` (banker's rounding,
half-to-even) to the parsed value.  The embedding scans positions left to
right exactly as `re.search` does; since `hours`/`hrs` extend
`hour`/`hr`, the alternation matches at a position iff `hour` or `hr`
does (likewise `minute`/`min`).  Parsed values are exact decimal
fractions, kept as explicit numerator/denominator pairs (the concrete
duration strings in play are exactly representable as floats, so
`float`'s binary rounding never moves them across a half-way point). -/

/-- An unreduced non-negative fraction `num / den`. -/
structure Frac where
  num : Nat
  den : Nat
deriving DecidableEq, Repr

/-- Value of a decimal digit string. -/
def digitsToNat (ds : List Char) : Nat :=
  ds.foldl (fun a c => 10 * a + (c.toNat - '0'.toNat)) 0

/-- `float("<d1>.<d2>")` as an exact fraction. -/
def fracOfDigits (d1 d2 : List Char) : Frac :=
  ⟨digitsToNat d1 * 10 ^ d2.length + digitsToNat d2, 10 ^ d2.length⟩

/-- Division by a positive integer (used for `minutes / 60.0`). -/
def Frac.divBy (q : Frac) (k : Nat) : Frac :=
  ⟨q.num, q.den * k⟩

/-- Python 3 `round` on a non-negative value: to the nearest integer,
ties to the even neighbour. -/
def roundHalfEven (q : Frac) : Int :=
  let f := q.num / q.den
  let r := q.num % q.den
  if 2 * r < q.den then (f : Int)
  else if q.den < 2 * r then (f : Int) + 1
  else if f % 2 = 0 then (f : Int) else (f : Int) + 1

/-- Case-insensitive "starts with" (first argument is lowercase). -/
def startsWithCI : List Char → List Char → Bool
  | [], _ => true
  | _ :: _, [] => false
  | u :: us, c :: cs => u = c.toLower && startsWithCI us cs

/-- Try the pattern `(\d+\.?\d*)\s*(?:unit...)` at the current position:
maximal digit run (non-empty), optional `.` plus maximal digit run,
maximal whitespace, then one of the units; greedy matching without
backtracking coincides with the regex here because digits can neither
continue `\s*` nor start a unit word. -/
def tryNumUnit (units : List (List Char)) (s : List Char) : Option Frac :=
  let p1 := s.span Char.isDigit
  if p1.1.isEmpty then none
  else
    let p2 :=
      match p1.2 with
      | '.' :: rest => rest.span Char.isDigit
      | r => (([] : List Char), r)
    let r3 := p2.2.dropWhile Char.isWhitespace
    if units.any (fun u => startsWithCI u r3) then
      some (fracOfDigits p1.1 p2.1)
    else none

/-- `re.search`: try each start position, leftmost first. -/
def searchNumUnit (units : List (List Char)) : List Char → Option Frac
  | [] => none
  | c :: cs =>
    match tryNumUnit units (c :: cs) with
    | some q => some q
    | none => searchNumUnit units cs

/-- The bare-number pattern `(\d+\.?\d*)` at the current position. -/
def tryBareNum (s : List Char) : Option Frac :=
  let p1 := s.span Char.isDigit
  if p1.1.isEmpty then none
  else
    let d2 :=
      match p1.2 with
      | '.' :: rest => (rest.span Char.isDigit).1
      | _ => ([] : List Char)
    some (fracOfDigits p1.1 d2)

/-- `re.search` for the bare-number pattern. -/
def searchBareNum : List Char → Option Frac
  | [] => none
  | c :: cs =>
    match tryBareNum (c :: cs) with
    | some q => some q
    | none => searchBareNum cs

/-- Python `str.strip()`. -/
def stripChars (cs : List Char) : List Char :=
  ((cs.dropWhile Char.isWhitespace).reverse.dropWhile Char.isWhitespace).reverse

/-- Lowercase unit prefixes equivalent to the alternation `hour|hours|hr|hrs`. -/
def hourUnits : List (List Char) := [['h','o','u','r'], ['h','r']]

/-- Lowercase unit prefixes equivalent to `minute|minutes|min|mins`. -/
def minuteUnits : List (List Char) := [['m','i','n','u','t','e'], ['m','i','n']]

/-- `core.models.parse_duration_to_hours`. -/
def parse_duration_to_hours (s : String) : Int :=
  if s = "" then 0
  else
    let cs := stripChars s.toList
    match searchNumUnit hourUnits cs with
    | some h => roundHalfEven h
    | none =>
      match searchNumUnit minuteUnits cs with
      | some m => roundHalfEven (m.divBy 60)
      | none =>
        match searchBareNum cs with
        | some n => roundHalfEven n
        | none => 0

/-! ### `ChatConsumer` database model (`core/consumers.py`)

The handshake-related consumer methods read `Offer`/`Need` rows, the
per-listing interests and the `Handshake` table, and write handshakes via
`Handshake.objects.create` / `handshake.save()`.  Rows carry their primary
keys explicitly. -/

/-- `core.models.Offer` (the fields the core logic reads). -/
structure Offer where
  id : Nat
  user : Nat
  duration : String
deriving DecidableEq, Repr

/-- `core.models.Need` (the fields the core logic reads). -/
structure Need where
  id : Nat
  user : Nat
  duration : String
deriving DecidableEq, Repr

/-- `core.models.OfferInterest` (key fields only). -/
structure OfferInterest where
  id : Nat
  offer : Nat
  user : Nat
deriving DecidableEq, Repr

/-- `core.models.NeedInterest` (key fields only). -/
structure NeedInterest where
  id : Nat
  need : Nat
  user : Nat
deriving DecidableEq, Repr

/-- A `Handshake` row with its primary key. -/
structure HandshakeRow where
  id : Nat
  hs : Handshake
deriving DecidableEq, Repr

/-- The slice of the database state the chat consumer touches. -/
structure Db where
  offers : List Offer
  needs : List Need
  offerInterests : List OfferInterest
  needInterests : List NeedInterest
  handshakes : List HandshakeRow
  balances : Balances
deriving DecidableEq, Repr

/-- Python `conversation_id.split('_')`. -/
def splitUnderscoreAux (acc : List Char) : List Char → List (List Char)
  | [] => [acc.reverse]
  | c :: cs =>
    if c = '_' then acc.reverse :: splitUnderscoreAux [] cs
    else splitUnderscoreAux (c :: acc) cs

/-- `split('_')` on a char list. -/
def splitUnderscore (cs : List Char) : List (List Char) :=
  splitUnderscoreAux [] cs

/-- Python `int(...)` on the id segment (failure models `ValueError`,
caught by the consumer's generic `except`). -/
def charsToNat? (cs : List Char) : Option Nat :=
  if cs ≠ [] ∧ cs.all Char.isDigit then some (digitsToNat cs) else none

/-- Outcome dict of `ChatConsumer.create_handshake`:
either the `'Handshake created'` payload or the
`'Handshake already exists'` payload. -/
inductive CreateResult where
  | created (id : Nat) (status : HStatus) (user1_id user2_id : Nat)
  | alreadyExists (id : Nat) (status : HStatus)
deriving DecidableEq, Repr

/-- `Handshake.objects.create(...)`: fresh primary key, then `save()` with
no stored row (`old = none`, so no ledger side effect fires). -/
def createHandshakeRow (db : Db) (h : Handshake) : Db × Except String HandshakeRow :=
  let res := handshakeSave none h db.balances
  match res.2 with
  | .ok h' =>
    let row : HandshakeRow := ⟨db.handshakes.length + 1, h'⟩
    ({ db with balances := res.1, handshakes := db.handshakes ++ [row] }, .ok row)
  | .error e => ({ db with balances := res.1 }, .error e)

/-- `ChatConsumer.create_handshake` (`core/consumers.py`): parses the
conversation id, rejects the listing creator, requires an existing
interest of the requesting user, reports an existing handshake, and
otherwise creates one with `status='active'`, `user1` = listing creator,
`user2` = requesting user (all other fields left at their defaults, so
`honey_amount = 0`).  Any exception yields `none`. -/
def create_handshake (db : Db) (selfUser : Nat) (conversationId : String) :
    Option CreateResult × Db :=
  match splitUnderscore conversationId.toList with
  | t :: i :: _ =>
    match charsToNat? i with
    | none => (none, db)
    | some itemId =>
      if t = "offer".toList then
        match db.offers.find? (fun o => o.id == itemId) with
        | none => (none, db)
        | some offer =>
          if offer.user = selfUser then (none, db)
          else
            match db.offerInterests.find?
                (fun oi => oi.offer == offer.id && oi.user == selfUser) with
            | none => (none, db)
            | some interest =>
              match db.handshakes.find?
                  (fun r => r.hs.offer_interest == some interest.id) with
              | some ex => (some (.alreadyExists ex.id ex.hs.status), db)
              | none =>
                let h : Handshake :=
                  ⟨some interest.id, none, offer.user, selfUser, .active, 0⟩
                let res := createHandshakeRow db h
                match res.2 with
                | .ok row =>
                  (some (.created row.id row.hs.status row.hs.user1 row.hs.user2),
                   res.1)
                | .error _ => (none, res.1)
      else if t = "need".toList then
        match db.needs.find? (fun n => n.id == itemId) with
        | none => (none, db)
        | some need =>
          if need.user = selfUser then (none, db)
          else
            match db.needInterests.find?
                (fun ni => ni.need == need.id && ni.user == selfUser) with
            | none => (none, db)
            | some interest =>
              match db.handshakes.find?
                  (fun r => r.hs.need_interest == some interest.id) with
              | some ex => (some (.alreadyExists ex.id ex.hs.status), db)
              | none =>
                let h : Handshake :=
                  ⟨none, some interest.id, need.user, selfUser, .active, 0⟩
                let res := createHandshakeRow db h
                match res.2 with
                | .ok row =>
                  (some (.created row.id row.hs.status row.hs.user1 row.hs.user2),
                   res.1)
                | .error _ => (none, res.1)
      else (none, db)
  | _ => (none, db)

/-- Outcome dict of `ChatConsumer.approve_handshake`
(`'Handshake approved'` payload). -/
structure ApproveResult where
  id : Nat
  status : HStatus
  user1_id : Nat
  user2_id : Nat
deriving DecidableEq, Repr

/-- Replace the row with primary key `hid` (in-place `save()` of an
existing handshake). -/
def replaceHandshake (rows : List HandshakeRow) (hid : Nat) (h : Handshake) :
    List HandshakeRow :=
  rows.map (fun r => if r.id == hid then ⟨hid, h⟩ else r)

/-- `ChatConsumer.approve_handshake` (`core/consumers.py`): parses the
conversation id, rejects everyone but the listing creator, finds the
first non-creator interest's handshake, and unconditionally sets its
status to `in_progress` and saves (the current status is not checked). -/
def approve_handshake (db : Db) (selfUser : Nat) (conversationId : String) :
    Option ApproveResult × Db :=
  match splitUnderscore conversationId.toList with
  | t :: i :: _ =>
    match charsToNat? i with
    | none => (none, db)
    | some itemId =>
      if t = "offer".toList then
        match db.offers.find? (fun o => o.id == itemId) with
        | none => (none, db)
        | some offer =>
          if offer.user ≠ selfUser then (none, db)
          else
            match db.offerInterests.find?
                (fun oi => oi.offer == offer.id && oi.user != selfUser) with
            | none => (none, db)
            | some interest =>
              match db.handshakes.find?
                  (fun r => r.hs.offer_interest == some interest.id) with
              | none => (none, db)
              | some row =>
                let h' := { row.hs with status := HStatus.in_progress }
                let res := handshakeSave (some row.hs.status) h' db.balances
                match res.2 with
                | .ok h'' =>
                  (some ⟨row.id, h''.status, h''.user1, h''.user2⟩,
                   { db with balances := res.1,
                             handshakes := replaceHandshake db.handshakes row.id h'' })
                | .error _ => (none, { db with balances := res.1 })
      else if t = "need".toList then
        match db.needs.find? (fun n => n.id == itemId) with
        | none => (none, db)
        | some need =>
          if need.user ≠ selfUser then (none, db)
          else
            match db.needInterests.find?
                (fun ni => ni.need == need.id && ni.user != selfUser) with
            | none => (none, db)
            | some interest =>
              match db.handshakes.find?
                  (fun r => r.hs.need_interest == some interest.id) with
              | none => (none, db)
              | some row =>
                let h' := { row.hs with status := HStatus.in_progress }
                let res := handshakeSave (some row.hs.status) h' db.balances
                match res.2 with
                | .ok h'' =>
                  (some ⟨row.id, h''.status, h''.user1, h''.user2⟩,
                   { db with balances := res.1,
                             handshakes := replaceHandshake db.handshakes row.id h'' })
                | .error _ => (none, { db with balances := res.1 })
      else (none, db)
  | _ => (none, db)

/-! ### Conversation summary deduplication and sorting
(`appsite/views.py`, `api_conversations`)

The view accumulates one candidate entry per interest, then deduplicates
by conversation id keeping the more recent `lastMessageTime`, and sorts
descending by that time.  `lastMessageTime` is `None` when the
conversation has no messages, else a non-empty `isoformat()` string;
those strings compare lexicographically exactly as the instants they
denote, so the embedding replaces them with natural numbers and `None`
(Python-falsy, and sorted via the key `x or ''`, the minimum) with
`Option.none`. -/

/-- One candidate conversation summary: its id string and its
`lastMessageTime`. -/
structure ConvEntry where
  convId : String
  time : Option Nat
deriving DecidableEq, Repr

/-- The sort key `x['lastMessageTime'] or ''`: `None` falls to the bottom
(`''` is below every non-empty isoformat string). -/
def sortKey (e : ConvEntry) : Nat :=
  match e.time with
  | none => 0
  | some t => t + 1

/-- The dict-overwrite test
`conv['lastMessageTime'] and (not seen[key]['lastMessageTime'] or
conv['lastMessageTime'] > seen[key]['lastMessageTime'])`. -/
def shouldReplace (c d : ConvEntry) : Bool :=
  match c.time, d.time with
  | some _, none => true
  | some tc, some td => td < tc
  | none, _ => false

/-- `seen[key] = conv` under the guard above: a Python dict keyed by
conversation id, insertion-ordered, conditionally overwritten in place. -/
def seenUpdate (c : ConvEntry) : List ConvEntry → List ConvEntry
  | [] => [c]
  | d :: ds =>
    if d.convId = c.convId then (if shouldReplace c d then c else d) :: ds
    else d :: seenUpdate c ds

/-- The dedup loop over all candidate entries. -/
def dedupConversations (l : List ConvEntry) : List ConvEntry :=
  l.foldl (fun acc c => seenUpdate c acc) []

/-- Stable descending insertion by `sortKey` (the element being inserted
precedes the tail elements in the original order, so it goes before any
tail element of equal key). -/
def insertDescConv (x : ConvEntry) : List ConvEntry → List ConvEntry
  | [] => [x]
  | y :: ys =>
    if sortKey y ≤ sortKey x then x :: y :: ys else y :: insertDescConv x ys

/-- `unique_conversations.sort(key=..., reverse=True)` (Python's sort is
stable). -/
def sortDescConv : List ConvEntry → List ConvEntry
  | [] => []
  | x :: xs => insertDescConv x (sortDescConv xs)

/-- The dedup-then-sort tail of `api_conversations`. -/
def apiConversationsOrder (l : List ConvEntry) : List ConvEntry :=
  sortDescConv (dedupConversations l)

/-- Loop invariant of the dedup pass: `acc` is the current `seen` dict
(insertion-ordered values) after processing `processed`.  Ids in `acc`
are unique, every kept entry is one of the processed candidates, every
processed candidate's id is represented, and each kept entry dominates
(by `sortKey`) every processed candidate with its id. -/
def DedupInv (processed acc : List ConvEntry) : Prop :=
  acc.Pairwise (fun p q => p.convId ≠ q.convId) ∧
  (∀ c ∈ acc, c ∈ processed) ∧
  (∀ c' ∈ processed, ∃ c ∈ acc, c.convId = c'.convId ∧ sortKey c' ≤ sortKey c) ∧
  (∀ c ∈ acc, ∀ c' ∈ processed, c'.convId = c.convId → sortKey c' ≤ sortKey c)

/-- Concrete candidate list: two entries for conversation `offer_1` (the
second with the later last-message time) and one message-less entry. -/
def convExample : List ConvEntry :=
  [⟨"offer_1", some 5⟩, ⟨"offer_1", some 9⟩, ⟨"need_2", none⟩]

/-- Concrete state: offer 1 created by user 1 with duration `"2 Hours"`,
an interest of user 2 on it, no handshake yet, and user 2 holding
`{total 3, provisioned 0}`. -/
def dbOfferNoHandshake : Db :=
  ⟨[⟨1, 1, "2 Hours"⟩], [], [⟨1, 1, 2⟩], [], [], [(2, ⟨3, 0⟩)]⟩

/-- Concrete state: offer 1 created by user 1, an interest of user 2, and
an existing handshake for that interest whose status is `completed`. -/
def dbOfferCompletedHandshake : Db :=
  ⟨[⟨1, 1, "2 Hours"⟩], [], [⟨1, 1, 2⟩], [],
   [⟨1, ⟨some 1, none, 1, 2, HStatus.completed, 0⟩⟩], []⟩

/-- Decidable equality for `Except` results, so that concrete ledger
outcomes can be checked by `decide`. -/
instance {ε α : Type} [DecidableEq ε] [DecidableEq α] :
    DecidableEq (Except ε α) := fun x y =>
  match x, y with
  | .ok a, .ok b =>
    if h : a = b then .isTrue (by rw [h])
    else .isFalse (fun hh => h (Except.ok.inj hh))
  | .error a, .error b =>
    if h : a = b then .isTrue (by rw [h])
    else .isFalse (fun hh => h (Except.error.inj hh))
  | .ok _, .error _ => .isFalse (fun hh => Except.noConfusion hh)
  | .error _, .ok _ => .isFalse (fun hh => Except.noConfusion hh)

/-! ## Theorems -/

/-- C6: `parse_duration_to_hours` on the three scenario strings.
`"1.5 Hours"` gives `2` and `"garbage"` gives `0` as the claim states,
but `"30 Minutes"` evaluates to `0`, not `1`: Python's `round` is
half-to-even, so `round(30 / 60.0) = round(0.5) = 0`, contradicting the
function's own docstring (`"30 Minutes" -> 1`). -/
theorem parse_duration_scenario_eval :
    parse_duration_to_hours "30 Minutes" = 0 ∧
    parse_duration_to_hours "1.5 Hours" = 2 ∧
    parse_duration_to_hours "garbage" = 0 := by
  refine ⟨by decide, by decide, by decide⟩

/-- C7: when the requested amount exceeds `usable_honey`, `provision`
raises the insufficient-funds `ValidationError` (and, being a pure
check-then-raise, leaves the balance untouched: the `.error` result
carries no modified state). -/
theorem provision_insufficient_fails (b : HoneyBalance) (n : Int)
    (hn : 0 ≤ n) (hgt : b.usable_honey < n) :
    b.provision n = .error "Insufficient honey." := by
  unfold HoneyBalance.provision
  rw [if_pos]
  simp only [HoneyBalance.can_afford, ge_iff_le, decide_eq_true_eq, not_le]
  exact hgt

/-- Witness for C7 at `b = {total 3, provisioned 0}`, `n = 4`. -/
theorem provision_insufficient_fails_witness :
    HoneyBalance.provision ⟨3, 0⟩ 4 = .error "Insufficient honey." :=
  provision_insufficient_fails ⟨3, 0⟩ 4 (by decide) (by decide)

/-- C2 (amended): `provision`, `release_provision`, `add_honey` and
`finalize_transaction` preserve `0 ≤ provisioned_honey ≤ total_honey`
for non-negative amounts; `deduct_honey` preserves it only under the
extra hypothesis `amount ≤ usable_honey` (its only check is
`amount ≤ total_honey`, so it can strand `provisioned_honey` above
`total_honey`). -/
theorem ledger_ops_preserve_invariant (b : HoneyBalance) (n : Int)
    (hn : 0 ≤ n) (hb : honeyInv b) :
    (∀ b', b.provision n = .ok b' → honeyInv b') ∧
    (∀ b', b.release_provision n = .ok b' → honeyInv b') ∧
    (∀ b', b.add_honey n = .ok b' → honeyInv b') ∧
    (∀ b', b.finalize_transaction n = .ok b' → honeyInv b') ∧
    (n ≤ b.usable_honey → ∀ b', b.deduct_honey n = .ok b' → honeyInv b') := by
  obtain ⟨h1, h2⟩ := hb
  refine ⟨?_, ?_, ?_, ?_, ?_⟩
  · intro b' h
    unfold HoneyBalance.provision at h
    split at h
    · simp at h
    · rename_i hc
      simp only [HoneyBalance.can_afford, HoneyBalance.usable_honey, ge_iff_le,
        decide_eq_true_eq, not_not, not_le] at hc
      rw [Except.ok.injEq] at h
      subst h
      unfold honeyInv
      dsimp only
      omega
  · intro b' h
    unfold HoneyBalance.release_provision at h
    split at h
    · simp at h
    · rename_i hc
      rw [Except.ok.injEq] at h
      subst h
      unfold honeyInv
      dsimp only
      omega
  · intro b' h
    unfold HoneyBalance.add_honey at h
    rw [Except.ok.injEq] at h
    subst h
    unfold honeyInv
    dsimp only
    omega
  · intro b' h
    unfold HoneyBalance.finalize_transaction at h
    split at h
    · simp at h
    · rename_i hc
      rw [Except.ok.injEq] at h
      subst h
      unfold honeyInv
      dsimp only
      omega
  · intro hu b' h
    unfold HoneyBalance.deduct_honey at h
    unfold HoneyBalance.usable_honey at hu
    split at h
    · simp at h
    · rename_i hc
      rw [Except.ok.injEq] at h
      subst h
      unfold honeyInv
      dsimp only
      omega

/-- Witness for C2's amended theorem: provisioning 1 on
`{total 3, provisioned 2}` yields `{total 3, provisioned 3}`, which still
satisfies the invariant. -/
theorem ledger_ops_preserve_invariant_witness : honeyInv ⟨3, 3⟩ :=
  (ledger_ops_preserve_invariant ⟨3, 2⟩ 1 (by decide) (by decide)).1
    ⟨3, 3⟩ (by decide)

/-- Counterexample for C2 as stated: `deduct_honey` invoked with the
non-negative amount 3 on `{total 5, provisioned 5}` (which satisfies the
invariant) succeeds and yields `{total 2, provisioned 5}`, which violates
`provisioned_honey ≤ total_honey`. -/
theorem deduct_honey_breaks_invariant_example :
    honeyInv ⟨5, 5⟩ ∧ (0 : Int) ≤ 3 ∧
    HoneyBalance.deduct_honey ⟨5, 5⟩ 3 = .ok ⟨2, 5⟩ ∧
    ¬ honeyInv (⟨2, 5⟩ : HoneyBalance) := by
  refine ⟨by decide, by decide, by decide, by decide⟩

/-- C9: when `honey_amount ≤ 0` (in particular at the field's default 0),
both `_finalize_honey_transaction` and `_release_provisioned_honey`
early-return, so saving any status transition leaves the whole
`HoneyBalance` table unchanged. -/
theorem zero_honey_transition_no_ledger_effect (old : Option HStatus)
    (h : Handshake) (bals : Balances) (hz : h.honey_amount ≤ 0) :
    (handshakeSave old h bals).1 = bals := by
  have hf : finalizeHoneyTransaction h bals = bals := by
    unfold finalizeHoneyTransaction; rw [if_pos hz]
  have hr : releaseProvisionedHoney h bals = bals := by
    unfold releaseProvisionedHoney; rw [if_pos hz]
  unfold handshakeSave
  rcases old with _ | s
  · rfl
  · simp only [hf, hr]
    split
    · rfl
    · split <;> rfl

/-- Witness for C9: completing a handshake whose `honey_amount` is 0
leaves the balance table `[(2, {3, 2})]` unchanged. -/
theorem zero_honey_transition_no_ledger_effect_witness :
    (handshakeSave (some HStatus.in_progress)
      ⟨some 1, none, 1, 2, HStatus.completed, 0⟩ [(2, ⟨3, 2⟩)]).1
      = [(2, ⟨3, 2⟩)] :=
  zero_honey_transition_no_ledger_effect (some HStatus.in_progress)
    ⟨some 1, none, 1, 2, HStatus.completed, 0⟩ [(2, ⟨3, 2⟩)] (by decide)

/-- `ensureBal` does nothing when the user already has a balance row. -/
theorem ensureBal_of_mem (bals : Balances) (u : Nat) (b : HoneyBalance)
    (h : lookupBal bals u = some b) : ensureBal bals u = bals := by
  unfold ensureBal
  rw [h]

/-- `getOrCreateBal` returns the existing row. -/
theorem getOrCreateBal_of_mem (bals : Balances) (u : Nat) (b : HoneyBalance)
    (h : lookupBal bals u = some b) : getOrCreateBal bals u = b := by
  unfold getOrCreateBal
  rw [h]

/-- C3 (amended): the guard in `Handshake.save` compares the stored status
with the new one, so the ledger side effect is skipped whenever the row is
new, the status is unchanged, or the new status is non-terminal.  In
particular saving `completed` over stored `completed` a second time
changes no `HoneyBalance`.  (The guard does *not* require the stored
status to be non-terminal: see the counterexample, where a save of
`completed` over stored `cancelled` re-fires the finalize effect.) -/
theorem handshake_save_no_retrigger (old : Option HStatus) (h : Handshake)
    (bals : Balances)
    (hcond : old = none ∨ old = some h.status ∨
      (h.status ≠ HStatus.completed ∧ h.status ≠ HStatus.cancelled)) :
    (handshakeSave old h bals).1 = bals := by
  unfold handshakeSave
  rcases old with _ | s
  · rfl
  · rcases hcond with hc | hc | hc
    · simp at hc
    · rw [Option.some.injEq] at hc
      subst hc
      dsimp only
      rw [if_neg (fun hx => hx.1 hx.2), if_neg (fun hx => hx.1 hx.2)]
    · obtain ⟨hc1, hc2⟩ := hc
      dsimp only
      rw [if_neg (fun hx => hc1 hx.2), if_neg (fun hx => hc2 hx.2)]

/-- Witness for C3's amended theorem: a second save of `completed` over a
stored `completed` handshake with `honey_amount = 2` leaves the spender's
balance `{total 1, provisioned 0}` untouched. -/
theorem handshake_save_no_retrigger_witness :
    (handshakeSave (some HStatus.completed)
      ⟨some 1, none, 1, 2, HStatus.completed, 2⟩ [(2, ⟨1, 0⟩)]).1
      = [(2, ⟨1, 0⟩)] :=
  handshake_save_no_retrigger (some HStatus.completed)
    ⟨some 1, none, 1, 2, HStatus.completed, 2⟩ [(2, ⟨1, 0⟩)]
    (Or.inr (Or.inl rfl))

/-- Counterexample for C3 as stated: saving status `completed` over a
handshake whose stored status is the *terminal* `cancelled` re-fires the
finalize side effect — the spender's balance moves from
`{total 3, provisioned 2}` to `{total 1, provisioned 0}` and the earner
is credited, so a ledger effect was applied on a transition out of a
terminal state (not only from non-terminal ones). -/
theorem finalize_fires_from_cancelled_example :
    (handshakeSave (some HStatus.cancelled)
        ⟨some 1, none, 1, 2, HStatus.completed, 2⟩
        [(2, ⟨3, 2⟩), (1, ⟨0, 0⟩)]).1
      = [(2, ⟨1, 0⟩), (1, ⟨2, 0⟩)] ∧
    ([(2, (⟨1, 0⟩ : HoneyBalance)), (1, ⟨2, 0⟩)] : Balances)
      ≠ [(2, ⟨3, 2⟩), (1, ⟨0, 0⟩)] := by
  refine ⟨by decide, by decide⟩

/-- C4: when the ledger side effect of a terminal transition raises (the
spender's provisioned honey is below `honey_amount`), the
`ValidationError` is caught inside `_finalize_honey_transaction` /
`_release_provisioned_honey`, the balance table is left as it was, and
the save still completes with the requested terminal status. -/
theorem terminal_transition_survives_ledger_failure :
    (∀ (old : HStatus) (h : Handshake) (bals : Balances)
        (sp er : Nat) (sb eb : HoneyBalance),
      h.clean = true →
      h.status = HStatus.completed → old ≠ HStatus.completed →
      h.get_spender = some sp → h.get_earner = some er →
      lookupBal bals sp = some sb → lookupBal bals er = some eb →
      sb.provisioned_honey < h.honey_amount →
      handshakeSave (some old) h bals = (bals, .ok h)) ∧
    (∀ (old : HStatus) (h : Handshake) (bals : Balances)
        (sp : Nat) (sb : HoneyBalance),
      h.clean = true →
      h.status = HStatus.cancelled → old ≠ HStatus.cancelled →
      h.get_spender = some sp →
      lookupBal bals sp = some sb →
      sb.provisioned_honey < h.honey_amount →
      handshakeSave (some old) h bals = (bals, .ok h)) := by
  constructor
  · intro old h bals sp er sb eb hcl hst hold hsp her hlsp hler hprov
    have hfin : finalizeHoneyTransaction h bals = bals := by
      unfold finalizeHoneyTransaction
      by_cases hz : h.honey_amount ≤ 0
      · rw [if_pos hz]
      · rw [if_neg hz]
        rw [hsp, her]
        have he1 : ensureBal bals sp = bals := ensureBal_of_mem bals sp sb hlsp
        have he2 : ensureBal (ensureBal bals sp) er = bals := by
          rw [he1]; exact ensureBal_of_mem bals er eb hler
        have hg1 : getOrCreateBal bals sp = sb :=
          getOrCreateBal_of_mem bals sp sb hlsp
        have hfail : sb.finalize_transaction h.honey_amount =
            .error "Cannot finalize: provisioned amount mismatch." := by
          unfold HoneyBalance.finalize_transaction
          rw [if_pos hprov]
        simp only [he2, hg1, hfail]
    unfold handshakeSave
    dsimp only
    rw [if_pos ⟨hold, hst⟩, hfin, if_pos hcl]
  · intro old h bals sp sb hcl hst hold hsp hlsp hprov
    have hrel : releaseProvisionedHoney h bals = bals := by
      unfold releaseProvisionedHoney
      by_cases hz : h.honey_amount ≤ 0
      · rw [if_pos hz]
      · rw [if_neg hz]
        have hfail : sb.release_provision h.honey_amount =
            .error "Cannot release more than provisioned." := by
          unfold HoneyBalance.release_provision
          rw [if_pos hprov]
        simp only [hsp]
        simp only [hlsp]
        simp only [hfail]
    unfold handshakeSave
    dsimp only
    have hne : ¬ (old ≠ HStatus.completed ∧ h.status = HStatus.completed) := by
      intro hx
      rw [hst] at hx
      exact HStatus.noConfusion hx.2
    rw [if_neg hne, if_pos ⟨hold, hst⟩, hrel, if_pos hcl]

/-- Witness for C4: completing (from `in_progress`) a handshake costing 5
honey when the spender only has 2 provisioned leaves the table unchanged
and still stores status `completed`; likewise for cancelling. -/
theorem terminal_transition_survives_ledger_failure_witness :
    handshakeSave (some HStatus.in_progress)
        ⟨some 1, none, 1, 2, HStatus.completed, 5⟩
        [(2, ⟨3, 2⟩), (1, ⟨0, 0⟩)]
      = ([(2, ⟨3, 2⟩), (1, ⟨0, 0⟩)],
         .ok ⟨some 1, none, 1, 2, HStatus.completed, 5⟩) ∧
    handshakeSave (some HStatus.active)
        ⟨some 1, none, 1, 2, HStatus.cancelled, 5⟩
        [(2, ⟨3, 2⟩)]
      = ([(2, ⟨3, 2⟩)], .ok ⟨some 1, none, 1, 2, HStatus.cancelled, 5⟩) :=
  ⟨terminal_transition_survives_ledger_failure.1 HStatus.in_progress
      ⟨some 1, none, 1, 2, HStatus.completed, 5⟩
      [(2, ⟨3, 2⟩), (1, ⟨0, 0⟩)] 2 1 ⟨3, 2⟩ ⟨0, 0⟩
      (by decide) (by decide) (by decide) (by decide) (by decide)
      (by decide) (by decide) (by decide),
   terminal_transition_survives_ledger_failure.2 HStatus.active
      ⟨some 1, none, 1, 2, HStatus.cancelled, 5⟩ [(2, ⟨3, 2⟩)] 2 ⟨3, 2⟩
      (by decide) (by decide) (by decide) (by decide) (by decide)
      (by decide)⟩

/-- C10: on a transition to `completed`, `add_honey` on the earner sits
inside the same `try` block *after* `finalize_transaction` on the
spender, so if the finalize raises, the earner's balance row is never
credited. -/
theorem no_credit_without_debit (old : HStatus) (h : Handshake)
    (bals : Balances) (sp er : Nat) (sb eb : HoneyBalance)
    (hcl : h.clean = true)
    (hst : h.status = HStatus.completed) (hold : old ≠ HStatus.completed)
    (hsp : h.get_spender = some sp) (her : h.get_earner = some er)
    (hlsp : lookupBal bals sp = some sb) (hler : lookupBal bals er = some eb)
    (hprov : sb.provisioned_honey < h.honey_amount) :
    lookupBal (handshakeSave (some old) h bals).1 er = some eb := by
  have hfin : finalizeHoneyTransaction h bals = bals := by
    unfold finalizeHoneyTransaction
    by_cases hz : h.honey_amount ≤ 0
    · rw [if_pos hz]
    · rw [if_neg hz]
      rw [hsp, her]
      have he1 : ensureBal bals sp = bals := ensureBal_of_mem bals sp sb hlsp
      have he2 : ensureBal (ensureBal bals sp) er = bals := by
        rw [he1]; exact ensureBal_of_mem bals er eb hler
      have hg1 : getOrCreateBal bals sp = sb :=
        getOrCreateBal_of_mem bals sp sb hlsp
      have hfail : sb.finalize_transaction h.honey_amount =
          .error "Cannot finalize: provisioned amount mismatch." := by
        unfold HoneyBalance.finalize_transaction
        rw [if_pos hprov]
      simp only [he2, hg1, hfail]
  unfold handshakeSave
  dsimp only
  rw [if_pos ⟨hold, hst⟩, hfin, hler]

/-- Witness for C10: with 2 provisioned against a 5-honey completion, the
earner `1` keeps `{total 0, provisioned 0}`. -/
theorem no_credit_without_debit_witness :
    lookupBal (handshakeSave (some HStatus.in_progress)
        ⟨some 1, none, 1, 2, HStatus.completed, 5⟩
        [(2, ⟨3, 2⟩), (1, ⟨0, 0⟩)]).1 1 = some ⟨0, 0⟩ :=
  no_credit_without_debit HStatus.in_progress
    ⟨some 1, none, 1, 2, HStatus.completed, 5⟩
    [(2, ⟨3, 2⟩), (1, ⟨0, 0⟩)] 2 1 ⟨3, 2⟩ ⟨0, 0⟩
    (by decide) (by decide) (by decide) (by decide) (by decide)
    (by decide) (by decide) (by decide)

/-- C1: evaluating `ChatConsumer.create_handshake` at a well-formed
`handshake_start` (non-creator user 2, interest present, no prior
handshake, listing duration `"2 Hours"`): the handshake is created with
status `active`, `user1` = creator 1, `user2` = 2, but its
`honey_amount` is the field default 0 — not the parsed duration 2 — and
the spender's balance stays `{total 3, provisioned 0}`: nothing is
provisioned.  The creation call never consults `parse_duration_to_hours`
nor `HoneyBalance.provision`, although the field's own help text calls it
"Amount of honey provisioned for this handshake" and the completion
machinery finalizes exactly that amount. -/
theorem create_handshake_leaves_honey_unprovisioned :
    (create_handshake dbOfferNoHandshake 2 "offer_1").1
      = some (.created 1 HStatus.active 1 2) ∧
    (create_handshake dbOfferNoHandshake 2 "offer_1").2.handshakes
      = [⟨1, ⟨some 1, none, 1, 2, HStatus.active, 0⟩⟩] ∧
    (create_handshake dbOfferNoHandshake 2 "offer_1").2.balances
      = [(2, ⟨3, 0⟩)] ∧
    parse_duration_to_hours "2 Hours" = 2 := by
  refine ⟨by decide, by decide, by decide, by decide⟩

/-- If a `handshake.save()` stores the handshake, it stores it exactly as
constructed (`full_clean` either passes or raises; it mutates nothing). -/
theorem handshakeSave_ok_eq (old : Option HStatus) (h h' : Handshake)
    (bals : Balances) (heq : (handshakeSave old h bals).2 = .ok h') :
    h' = h := by
  unfold handshakeSave at heq
  dsimp only at heq
  split at heq
  · exact (Except.ok.inj heq).symm
  · exact Except.noConfusion heq

/-- C5 (amended): `approve_handshake` succeeds only for the listing
creator (a non-creator's request returns nothing and changes nothing),
and on success the status becomes `in_progress` — but the current status
is never checked: there is no `InvalidState` failure, and a handshake in
any status (including terminal ones) is moved to `in_progress`. -/
theorem approve_handshake_creator_only_no_status_check :
    (∀ (db : Db) (u : Nat) (cid : String) (r : ApproveResult) (db' : Db),
      approve_handshake db u cid = (some r, db') →
      r.status = HStatus.in_progress) ∧
    (∀ (db : Db) (u : Nat) (cid : String) (t i : List Char)
        (rest : List (List Char)) (itemId : Nat) (o : Offer),
      splitUnderscore cid.toList = t :: i :: rest →
      charsToNat? i = some itemId →
      t = "offer".toList →
      db.offers.find? (fun x => x.id == itemId) = some o →
      o.user ≠ u →
      approve_handshake db u cid = (none, db)) ∧
    (∀ (db : Db) (u : Nat) (cid : String) (t i : List Char)
        (rest : List (List Char)) (itemId : Nat) (n : Need),
      splitUnderscore cid.toList = t :: i :: rest →
      charsToNat? i = some itemId →
      t = "need".toList →
      db.needs.find? (fun x => x.id == itemId) = some n →
      n.user ≠ u →
      approve_handshake db u cid = (none, db)) := by
  refine ⟨?_, ?_, ?_⟩
  · intro db u cid r db' hap
    simp only [approve_handshake] at hap
    repeat' split at hap
    all_goals
      try (exact absurd (congrArg Prod.fst hap) (fun hx => Option.noConfusion hx))
    all_goals
      (rename_i h'' heq
       have hh := handshakeSave_ok_eq _ _ _ _ heq
       subst hh
       have h1 := congrArg Prod.fst hap
       simp only [Option.some.injEq] at h1
       rw [← h1])
  · intro db u cid t i rest itemId o hsplit hnat ht hfind hne
    simp only [approve_handshake, hsplit, hnat, hfind]
    rw [if_pos ht, if_pos hne]
  · intro db u cid t i rest itemId n hsplit hnat ht hfind hne
    simp only [approve_handshake, hsplit, hnat]
    rw [if_neg ?_, if_pos ht]
    · simp only [hfind]
      rw [if_pos hne]
    · rw [ht]
      decide

/-- Witness for C5's amended theorem at the concrete completed-handshake
state: the creator's approval returns status `in_progress`. -/
theorem approve_handshake_creator_only_witness :
    (⟨1, HStatus.in_progress, 1, 2⟩ : ApproveResult).status
      = HStatus.in_progress :=
  approve_handshake_creator_only_no_status_check.1
    dbOfferCompletedHandshake 1 "offer_1" ⟨1, HStatus.in_progress, 1, 2⟩
    ((approve_handshake dbOfferCompletedHandshake 1 "offer_1").2)
    (by decide)

/-- Counterexample for C5 as stated: the creator approves a handshake
whose status is `completed` (not `active`); instead of failing with
`InvalidState`, the call succeeds and rewrites the status to
`in_progress`. -/
theorem approve_succeeds_on_completed_example :
    (approve_handshake dbOfferCompletedHandshake 1 "offer_1").1
      = some ⟨1, HStatus.in_progress, 1, 2⟩ ∧
    (approve_handshake dbOfferCompletedHandshake 1 "offer_1").2.handshakes
      = [⟨1, ⟨some 1, none, 1, 2, HStatus.in_progress, 0⟩⟩] := by
  refine ⟨by decide, by decide⟩

/-- The dict-overwrite condition holds exactly when the incoming entry
has a strictly larger sort key (with missing times at the bottom). -/
theorem shouldReplace_iff (c d : ConvEntry) :
    shouldReplace c d = true ↔ sortKey d < sortKey c := by
  rcases c with ⟨cid, _ | tc⟩ <;> rcases d with ⟨did, _ | td⟩ <;>
    simp [shouldReplace, sortKey]

/-- Entries of the updated `seen` dict come from the old dict or are the
incoming entry. -/
theorem mem_seenUpdate (x c : ConvEntry) (a : List ConvEntry)
    (h : c ∈ seenUpdate x a) : c ∈ a ∨ c = x := by
  induction a with
  | nil =>
    simp only [seenUpdate, List.mem_singleton] at h
    exact Or.inr h
  | cons d ds ih =>
    simp only [seenUpdate] at h
    split at h
    · rcases List.mem_cons.mp h with h1 | h1
      · by_cases hs : shouldReplace x d
        · rw [if_pos hs] at h1
          exact Or.inr h1
        · rw [if_neg hs] at h1
          exact Or.inl (by rw [h1]; exact List.mem_cons_self d ds)
      · exact Or.inl (List.mem_cons_of_mem _ h1)
    · rcases List.mem_cons.mp h with h1 | h1
      · exact Or.inl (by rw [h1]; exact List.mem_cons_self d ds)
      · rcases ih h1 with h2 | h2
        · exact Or.inl (List.mem_cons_of_mem _ h2)
        · exact Or.inr h2

/-- Updating the `seen` dict preserves distinctness of conversation ids. -/
theorem pairwise_seenUpdate (x : ConvEntry) (a : List ConvEntry)
    (h : a.Pairwise (fun p q => p.convId ≠ q.convId)) :
    (seenUpdate x a).Pairwise (fun p q => p.convId ≠ q.convId) := by
  induction a with
  | nil => simp [seenUpdate]
  | cons d ds ih =>
    rw [List.pairwise_cons] at h
    obtain ⟨hd, hds⟩ := h
    simp only [seenUpdate]
    split
    · rename_i heq
      rw [List.pairwise_cons]
      refine ⟨?_, hds⟩
      intro e he
      have hkept : (if shouldReplace x d then x else d).convId = d.convId := by
        split
        · exact heq.symm
        · rfl
      rw [hkept]
      exact hd e he
    · rename_i hne
      rw [List.pairwise_cons]
      constructor
      · intro e he
        rcases mem_seenUpdate x e ds he with h1 | h1
        · exact hd e h1
        · rw [h1]; exact hne
      · exact ih hds

/-- Any surviving entry carrying the incoming entry's id dominates it. -/
theorem seenUpdate_ge_new (x : ConvEntry) (a : List ConvEntry)
    (hp : a.Pairwise (fun p q => p.convId ≠ q.convId))
    (c : ConvEntry) (hc : c ∈ seenUpdate x a) (hid : c.convId = x.convId) :
    sortKey x ≤ sortKey c := by
  induction a with
  | nil =>
    simp only [seenUpdate, List.mem_singleton] at hc
    subst hc
    exact Nat.le_refl _
  | cons d ds ih =>
    rw [List.pairwise_cons] at hp
    obtain ⟨hd, hds⟩ := hp
    simp only [seenUpdate] at hc
    split at hc
    · rename_i heq
      rcases List.mem_cons.mp hc with h1 | h1
      · by_cases hs : shouldReplace x d
        · rw [if_pos hs] at h1
          subst h1
          exact Nat.le_refl _
        · rw [if_neg hs] at h1
          have hnlt : ¬ sortKey d < sortKey x :=
            fun hlt => hs ((shouldReplace_iff x d).mpr hlt)
          rw [h1]
          omega
      · exact absurd (heq.trans hid.symm).symm (fun e => hd c h1 e.symm)
    · rename_i hne
      rcases List.mem_cons.mp hc with h1 | h1
      · rw [h1] at hid
        exact absurd hid hne
      · exact ih hds h1

/-- If the incoming entry is genuinely inserted (it was not already a
value of the dict), every old same-id entry had a strictly smaller key. -/
theorem seenUpdate_dominates_old (x : ConvEntry) (a : List ConvEntry)
    (hp : a.Pairwise (fun p q => p.convId ≠ q.convId))
    (hx : x ∈ seenUpdate x a) (hxa : x ∉ a)
    (d : ConvEntry) (hd : d ∈ a) (hid : d.convId = x.convId) :
    sortKey d < sortKey x := by
  induction a with
  | nil => cases hd
  | cons d₀ ds ih =>
    rw [List.pairwise_cons] at hp
    obtain ⟨hh, hds⟩ := hp
    simp only [seenUpdate] at hx
    split at hx
    · rename_i heq
      rcases List.mem_cons.mp hx with h1 | h1
      · by_cases hs : shouldReplace x d₀
        · have hlt := (shouldReplace_iff x d₀).mp hs
          rcases List.mem_cons.mp hd with h2 | h2
          · rw [h2]; exact hlt
          · exact absurd (heq.trans hid.symm).symm (fun e => hh d h2 e.symm)
        · rw [if_neg hs] at h1
          exact absurd (by rw [h1]; exact List.mem_cons_self d₀ ds) hxa
      · exact absurd (List.mem_cons_of_mem _ h1) hxa
    · rename_i hne
      rcases List.mem_cons.mp hx with h1 | h1
      · exact absurd (by rw [h1]; exact List.mem_cons_self d₀ ds) hxa
      · rcases List.mem_cons.mp hd with h2 | h2
        · rw [h2] at hid
          exact absurd hid hne
        · exact ih hds h1 (fun hm => hxa (List.mem_cons_of_mem _ hm)) h2

/-- The incoming entry's id is represented in the updated dict by an
entry at least as large. -/
theorem seenUpdate_covers_new (x : ConvEntry) (a : List ConvEntry) :
    ∃ c ∈ seenUpdate x a, c.convId = x.convId ∧ sortKey x ≤ sortKey c := by
  induction a with
  | nil =>
    exact ⟨x, by simp [seenUpdate], rfl, Nat.le_refl _⟩
  | cons d ds ih =>
    simp only [seenUpdate]
    split
    · rename_i heq
      by_cases hs : shouldReplace x d
      · exact ⟨x, by rw [if_pos hs]; exact List.mem_cons_self _ _, rfl,
          Nat.le_refl _⟩
      · refine ⟨d, by rw [if_neg hs]; exact List.mem_cons_self _ _, heq, ?_⟩
        have hnlt : ¬ sortKey d < sortKey x :=
          fun hlt => hs ((shouldReplace_iff x d).mpr hlt)
        omega
    · obtain ⟨c, hc, hcid, hkey⟩ := ih
      exact ⟨c, List.mem_cons_of_mem _ hc, hcid, hkey⟩

/-- Every old entry's id stays represented by an entry at least as
large. -/
theorem seenUpdate_covers_old (x : ConvEntry) (a : List ConvEntry)
    (d : ConvEntry) (hd : d ∈ a) :
    ∃ c ∈ seenUpdate x a, c.convId = d.convId ∧ sortKey d ≤ sortKey c := by
  induction a with
  | nil => cases hd
  | cons d₀ ds ih =>
    simp only [seenUpdate]
    split
    · rename_i heq
      rcases List.mem_cons.mp hd with h1 | h1
      · subst h1
        by_cases hs : shouldReplace x d
        · refine ⟨x, by rw [if_pos hs]; exact List.mem_cons_self _ _,
            heq.symm, Nat.le_of_lt ((shouldReplace_iff x d).mp hs)⟩
        · exact ⟨d, by rw [if_neg hs]; exact List.mem_cons_self _ _, rfl,
            Nat.le_refl _⟩
      · exact ⟨d, List.mem_cons_of_mem _ h1, rfl, Nat.le_refl _⟩
    · rcases List.mem_cons.mp hd with h1 | h1
      · subst h1
        exact ⟨d, List.mem_cons_self _ _, rfl, Nat.le_refl _⟩
      · obtain ⟨c, hc, hcid, hkey⟩ := ih h1
        exact ⟨c, List.mem_cons_of_mem _ hc, hcid, hkey⟩

/-- One step of the dedup loop preserves the invariant. -/
theorem dedupInv_step (processed acc : List ConvEntry) (x : ConvEntry)
    (h : DedupInv processed acc) :
    DedupInv (processed ++ [x]) (seenUpdate x acc) := by
  obtain ⟨h1, h2, h3, h4⟩ := h
  refine ⟨pairwise_seenUpdate x acc h1, ?_, ?_, ?_⟩
  · intro c hc
    rcases mem_seenUpdate x c acc hc with hm | hm
    · exact List.mem_append_left _ (h2 c hm)
    · rw [hm]
      exact List.mem_append_right _ (List.mem_singleton.mpr rfl)
  · intro c' hc'
    rcases List.mem_append.mp hc' with hm | hm
    · obtain ⟨d, hd, hdid, hdkey⟩ := h3 c' hm
      obtain ⟨c, hc, hcid, hckey⟩ := seenUpdate_covers_old x acc d hd
      exact ⟨c, hc, hcid.trans hdid, Nat.le_trans hdkey hckey⟩
    · have hm' : c' = x := List.mem_singleton.mp hm
      subst hm'
      exact seenUpdate_covers_new c' acc
  · intro c hc c' hc' hid
    rcases List.mem_append.mp hc' with hm | hm
    · by_cases hca : c ∈ acc
      · exact h4 c hca c' hm hid
      · rcases mem_seenUpdate x c acc hc with hmc | hmc
        · exact absurd hmc hca
        · subst hmc
          obtain ⟨d, hd, hdid, hdkey⟩ := h3 c' hm
          have hdx : sortKey d < sortKey c :=
            seenUpdate_dominates_old c acc h1 hc hca d hd (hdid.trans hid)
          omega
    · have hm' : c' = x := List.mem_singleton.mp hm
      subst hm'
      exact seenUpdate_ge_new c' acc h1 c hc hid.symm

/-- The dedup loop maintains the invariant over the whole input. -/
theorem dedup_fold_inv (l : List ConvEntry) :
    ∀ (processed acc : List ConvEntry), DedupInv processed acc →
      DedupInv (processed ++ l)
        (l.foldl (fun a c => seenUpdate c a) acc) := by
  induction l with
  | nil =>
    intro p a h
    simpa using h
  | cons x xs ih =>
    intro p a h
    have h' := dedupInv_step p a x h
    have h'' := ih (p ++ [x]) (seenUpdate x a) h'
    simpa [List.append_assoc] using h''

/-- The dedup pass satisfies its invariant against the full candidate
list. -/
theorem dedupConversations_inv (l : List ConvEntry) :
    DedupInv l (dedupConversations l) := by
  have h0 : DedupInv [] [] :=
    ⟨List.Pairwise.nil, by simp, by simp, by simp⟩
  simpa [dedupConversations] using dedup_fold_inv l [] [] h0

/-- Membership through descending insertion. -/
theorem mem_insertDescConv (x c : ConvEntry) (l : List ConvEntry) :
    c ∈ insertDescConv x l ↔ c = x ∨ c ∈ l := by
  induction l with
  | nil => simp [insertDescConv]
  | cons y ys ih =>
    simp only [insertDescConv]
    split
    · simp [List.mem_cons]
    · rw [List.mem_cons, ih, List.mem_cons]
      tauto

/-- Descending insertion permutes. -/
theorem perm_insertDescConv (x : ConvEntry) (l : List ConvEntry) :
    List.Perm (insertDescConv x l) (x :: l) := by
  induction l with
  | nil => exact List.Perm.refl _
  | cons y ys ih =>
    simp only [insertDescConv]
    split
    · exact List.Perm.refl _
    · exact (ih.cons y).trans (List.Perm.swap x y ys)

/-- The descending sort permutes its input. -/
theorem perm_sortDescConv (l : List ConvEntry) :
    List.Perm (sortDescConv l) l := by
  induction l with
  | nil => exact List.Perm.refl _
  | cons x xs ih =>
    simp only [sortDescConv]
    exact (perm_insertDescConv x (sortDescConv xs)).trans (ih.cons x)

/-- Descending insertion preserves descending sortedness. -/
theorem sorted_insertDescConv (x : ConvEntry) (l : List ConvEntry)
    (hl : l.Pairwise (fun a b => sortKey b ≤ sortKey a)) :
    (insertDescConv x l).Pairwise (fun a b => sortKey b ≤ sortKey a) := by
  induction l with
  | nil => simp [insertDescConv]
  | cons y ys ih =>
    rw [List.pairwise_cons] at hl
    obtain ⟨hy, hys⟩ := hl
    simp only [insertDescConv]
    split
    · rename_i hxy
      rw [List.pairwise_cons]
      refine ⟨?_, List.pairwise_cons.mpr ⟨hy, hys⟩⟩
      intro b hb
      rcases List.mem_cons.mp hb with h1 | h1
      · rw [h1]; exact hxy
      · exact Nat.le_trans (hy b h1) hxy
    · rename_i hxy
      rw [List.pairwise_cons]
      refine ⟨?_, ih hys⟩
      intro b hb
      rcases (mem_insertDescConv x b ys).mp hb with h1 | h1
      · rw [h1]; omega
      · exact hy b h1

/-- The output of the descending sort is descending by `sortKey`. -/
theorem sorted_sortDescConv (l : List ConvEntry) :
    (sortDescConv l).Pairwise (fun a b => sortKey b ≤ sortKey a) := by
  induction l with
  | nil => simp [sortDescConv]
  | cons x xs ih =>
    simp only [sortDescConv]
    exact sorted_insertDescConv x _ ih

/-- `sortKey` hits the bottom exactly on message-less conversations. -/
theorem sortKey_eq_zero_iff (e : ConvEntry) : sortKey e = 0 ↔ e.time = none := by
  rcases e with ⟨cid, _ | t⟩ <;> simp [sortKey]

/-- C8: the conversation summary list has at most one entry per
conversation id; each kept entry is one of the candidates and carries the
maximal last-message key among the candidates with its id (missing times
being the lowest value); the list is sorted descending by that key; and
entries with no messages come after all entries that have one. -/
theorem api_conversations_dedup_sorted (l : List ConvEntry) :
    (apiConversationsOrder l).Pairwise (fun a b => a.convId ≠ b.convId) ∧
    (apiConversationsOrder l).Pairwise (fun a b => sortKey b ≤ sortKey a) ∧
    (apiConversationsOrder l).Pairwise
      (fun a b => a.time = none → b.time = none) ∧
    ∀ c ∈ apiConversationsOrder l, c ∈ l ∧
      ∀ c' ∈ l, c'.convId = c.convId → sortKey c' ≤ sortKey c := by
  obtain ⟨h1, h2, h3, h4⟩ := dedupConversations_inv l
  have hperm : List.Perm (apiConversationsOrder l) (dedupConversations l) :=
    perm_sortDescConv (dedupConversations l)
  have hsorted := sorted_sortDescConv (dedupConversations l)
  refine ⟨?_, hsorted, ?_, ?_⟩
  · exact (List.Perm.pairwise_iff (fun h e => h e.symm) hperm).mpr h1
  · refine hsorted.imp ?_
    intro a b hk ha
    have ha0 : sortKey a = 0 := (sortKey_eq_zero_iff a).mpr ha
    exact (sortKey_eq_zero_iff b).mp (by omega)
  · intro c hc
    have hcd : c ∈ dedupConversations l := hperm.mem_iff.mp hc
    exact ⟨h2 c hcd, fun c' hc' hid => h4 c hcd c' hc' hid⟩

/-- Witness for C8 on `convExample` (Scenario D shape): the kept
`offer_1` entry dominates the duplicate entry with the older message
time. -/
theorem api_conversations_dedup_sorted_witness :
    sortKey ⟨"offer_1", some 5⟩ ≤ sortKey ⟨"offer_1", some 9⟩ :=
  ((api_conversations_dedup_sorted convExample).2.2.2
      ⟨"offer_1", some 9⟩ (by decide)).2
    ⟨"offer_1", some 5⟩ (by decide) (by decide)

end TheHive
